import Mathlib

/-!
Verification of the `historyService` persistence module of luminatext
(src/unnamed/part_000): a bounded, ordered list of transcription records
kept under one localStorage key, with save / list / delete / clear /
export operations.

Modelling choices:
* JS strings are sequences of UTF-16 code units, embedded as `List Char`
  (`Str`); `s.substring(0, n)` is `List.take n`, `s.length` is
  `List.length`, string concatenation is `List.append`.
* The localStorage slot under the single key `luminatext_history` is
  `Storage := Option StoredValue`: `none` when the key is absent
  (`getItem` returns `null`, `removeItem` deletes the key).  A present
  string is `StoredValue`: `.ok l` for a string that `JSON.parse`
  deserializes to the record list `l` (what `JSON.stringify` writes),
  `.corrupt s` for a string on which `JSON.parse` throws.
* `localStorage.setItem` / `removeItem` may throw (quota exceeded,
  storage unavailable); each operation takes a `Bool` failure flag and
  the thrown exception is modelled with `Except Unit`.  The source wraps
  every operation in try/catch that logs and returns, so the exported
  functions are total and return the (unchanged) storage state on
  failure.
* `Date.now()` and the `Math.random()` suffix used to build a record id
  are passed in as parameters `now : Nat` and `rand : Str`.
-/

/-- A JS string as a sequence of UTF-16 code units. -/
abbrev Str := List Char

/-- The shape of a transcription result consumed by the store
(fields of `TranscriptionResult` used by `saveTranscription`). -/
structure TranscriptionResult where
  fileName : Str
  date : Str
  duration : Str
  fileSize : Str
  text : Str
deriving DecidableEq, Repr

/-- `HistoryItem` of part_000, lines 3-11. -/
structure HistoryItem where
  id : Str
  fileName : Str
  date : Str
  duration : Str
  fileSize : Str
  text : Str
  preview : Str
deriving DecidableEq, Repr

/-- A string stored under the key, classified by what `JSON.parse` does
with it: `.ok l` deserializes to the record list `l`, `.corrupt s`
makes `JSON.parse` throw. -/
inductive StoredValue where
  | ok (items : List HistoryItem)
  | corrupt (s : Str)
deriving DecidableEq, Repr

/-- The localStorage slot under `STORAGE_KEY`; `none` = key absent. -/
abbrev Storage := Option StoredValue

/-- `JSON.parse` on a stored string: returns the list or throws. -/
def jsonParse : StoredValue → Except Unit (List HistoryItem)
  | .ok l => .ok l
  | .corrupt _ => .error ()

/-- `localStorage.setItem(STORAGE_KEY, v)`: throws when `writeFails`,
otherwise replaces the slot. -/
def setItem (writeFails : Bool) (v : StoredValue) : Except Unit Storage :=
  if writeFails then .error () else .ok (some v)

/-- `localStorage.removeItem(STORAGE_KEY)`: throws when `removeFails`,
otherwise deletes the key. -/
def removeItem (removeFails : Bool) : Except Unit Storage :=
  if removeFails then .error () else .ok none

/-- `getTranscriptionHistory` (part_000, lines 49-57): read the slot,
`JSON.parse` it, and return `[]` when the key is absent or parsing
throws (the catch logs and returns `[]`). -/
def getTranscriptionHistory (st : Storage) : List HistoryItem :=
  match st with
  | none => []
  | some v =>
    match jsonParse v with
    | .ok l => l
    | .error _ => []

/-- The record id `Date.now() + "-" + Math.random().toString(36).substring(2,9)`
(part_000, line 23). -/
def mkId (now : Nat) (rand : Str) : Str :=
  (Nat.repr now).data ++ '-' :: rand

/-- The `preview` field
`result.text.substring(0, 150) + (result.text.length > 150 ? "..." : "")`
(part_000, line 29). -/
def mkPreview (text : Str) : Str :=
  text.take 150 ++ (if 150 < text.length then ['.', '.', '.'] else [])

/-- The `historyItem` literal built by `saveTranscription`
(part_000, lines 22-30). -/
def mkHistoryItem (now : Nat) (rand : Str) (r : TranscriptionResult) : HistoryItem :=
  { id := mkId now rand
    fileName := r.fileName
    date := r.date
    duration := r.duration
    fileSize := r.fileSize
    text := r.text
    preview := mkPreview r.text }

/-- `saveTranscription` (part_000, lines 18-44): read the current list,
prepend the new record, keep the first 100, write back; a throwing
write is caught (logged) and leaves the slot unchanged. -/
def saveTranscription (now : Nat) (rand : Str) (writeFails : Bool)
    (result : TranscriptionResult) (st : Storage) : Storage :=
  let existingHistory := getTranscriptionHistory st
  let historyItem := mkHistoryItem now rand result
  let updatedHistory := historyItem :: existingHistory
  let limitedHistory := updatedHistory.take 100
  match setItem writeFails (.ok limitedHistory) with
  | .ok st2 => st2
  | .error _ => st

/-- `deleteTranscription` (part_000, lines 62-72): filter out records
whose `id` equals the argument and write the rest back; a throwing
write is caught and leaves the slot unchanged. -/
def deleteTranscription (id : Str) (writeFails : Bool) (st : Storage) : Storage :=
  let history := getTranscriptionHistory st
  let updatedHistory := history.filter (fun item => item.id != id)
  match setItem writeFails (.ok updatedHistory) with
  | .ok st2 => st2
  | .error _ => st

/-- `clearAllHistory` (part_000, lines 77-84): remove the key; a
throwing remove is caught and leaves the slot unchanged. -/
def clearAllHistory (removeFails : Bool) (st : Storage) : Storage :=
  match removeItem removeFails with
  | .ok st2 => st2
  | .error _ => st

/-- The regex replace `fileName.replace(/\.[^/.]+$/, "")`: drop a final
`.ext` whose `ext` is nonempty and contains neither `.` nor `/`. -/
def stripExtension (s : Str) : Str :=
  let r := s.reverse
  let ext := r.takeWhile (fun c => !(c == '.' || c == '/'))
  let rest := r.dropWhile (fun c => !(c == '.' || c == '/'))
  if ext ≠ [] ∧ rest.head? = some '.' then rest.tail.reverse else s

/-- The browser download produced by `downloadTranscription`: the
file's name and its text content. -/
structure Download where
  fileName : Str
  content : Str
deriving DecidableEq, Repr

/-- `downloadTranscription` (part_000, lines 89-103): build a Blob from
`item.text`, name it `fileName` minus extension plus `_transcript.txt`,
and trigger a client-side download; no storage call is made, so the
slot is returned unchanged. -/
def downloadTranscription (item : HistoryItem) (st : Storage) : Download × Storage :=
  ({ fileName := stripExtension item.fileName ++ "_transcript.txt".data
     content := item.text }, st)

/-- One store operation, with its failure flag. -/
inductive Op where
  | save (now : Nat) (rand : Str) (writeFails : Bool) (r : TranscriptionResult)
  | del (id : Str) (writeFails : Bool)
  | clear (removeFails : Bool)
deriving DecidableEq, Repr

/-- Apply one operation to the storage slot. -/
def step (st : Storage) : Op → Storage
  | .save now rand writeFails r => saveTranscription now rand writeFails r st
  | .del id writeFails => deleteTranscription id writeFails st
  | .clear removeFails => clearAllHistory removeFails st

/-- Run a sequence of operations starting from empty storage. -/
def run (ops : List Op) : Storage :=
  ops.foldl step none

/-- The records of the successful saves in one operation. -/
def opItems : Op → List HistoryItem
  | .save now rand false r => [mkHistoryItem now rand r]
  | _ => []

/-- The records successfully saved by a run, most recent first. -/
def savedItemsRev : List Op → List HistoryItem
  | [] => []
  | op :: rest => savedItemsRev rest ++ opItems op

/-- A save request: the clock value, random suffix and result. -/
structure SaveReq where
  now : Nat
  rand : Str
  result : TranscriptionResult
deriving DecidableEq, Repr

/-- The record a save request produces. -/
def SaveReq.item (q : SaveReq) : HistoryItem :=
  mkHistoryItem q.now q.rand q.result

/-- Successful save operations for a list of requests, in order. -/
def savesOf (qs : List SaveReq) : List Op :=
  qs.map (fun q => Op.save q.now q.rand false q.result)

/-- The records of a list of save requests, in order. -/
def itemsOf (qs : List SaveReq) : List HistoryItem :=
  qs.map SaveReq.item

/-! Concrete sample data, used to evaluate the operations at explicit
inputs. -/

/-- A sample transcription result. -/
def sampleResult : TranscriptionResult :=
  ⟨"audio.mp3".data, "2024-01-01".data, "1:00".data, "1MB".data, "hello".data⟩

/-- A sample record with id `1-aa`. -/
def recA : HistoryItem := mkHistoryItem 1 "aa".data sampleResult

/-- A sample record with id `2-bb`. -/
def recB : HistoryItem := mkHistoryItem 2 "bb".data sampleResult

/-- A second record sharing the id `1-aa` with `recA` (ids are only
best-effort unique). -/
def recA2 : HistoryItem := { recA with text := "other".data }

/-- A stored list holding two records with the same id. -/
def dupStore : Storage := some (.ok [recA, recB, recA2])

/-- A save request with clock value `i` and empty random suffix. -/
def wreq (i : Nat) : SaveReq := ⟨i, [], sampleResult⟩

/-- One hundred save requests with clock values `1..100`. -/
def wrest : List SaveReq := (List.range 100).map (fun i => wreq (i + 1))

/-! ## Theorems -/

/-- C2: saving a result and then listing yields a sequence containing a
record whose `text`, `fileName`, `duration`, `fileSize` and `date`
equal the corresponding fields of the result, and that record is the
first element of the sequence. -/
theorem saveTranscription_then_list_head (now : Nat) (rand : Str)
    (r : TranscriptionResult) (st : Storage) :
    ∃ rec : HistoryItem,
      rec ∈ getTranscriptionHistory (saveTranscription now rand false r st) ∧
      (getTranscriptionHistory (saveTranscription now rand false r st)).head? = some rec ∧
      rec.text = r.text ∧ rec.fileName = r.fileName ∧ rec.duration = r.duration ∧
      rec.fileSize = r.fileSize ∧ rec.date = r.date := by
  refine ⟨mkHistoryItem now rand r, ?_, rfl, rfl, rfl, rfl, rfl, rfl⟩
  exact List.mem_cons_self _ _

/-- C3: the `preview` of a saved record is the whole `text` when its
length is at most 150, and otherwise its first 150 characters followed
by the 3-character marker, giving total length 153 (in particular for
`text` of length 200). -/
theorem mkHistoryItem_preview_spec (now : Nat) (rand : Str) (r : TranscriptionResult) :
    (r.text.length ≤ 150 → (mkHistoryItem now rand r).preview = r.text) ∧
    (150 < r.text.length →
      (mkHistoryItem now rand r).preview = r.text.take 150 ++ ['.', '.', '.'] ∧
      (mkHistoryItem now rand r).preview.length = 153) := by
  constructor
  · intro h
    show mkPreview r.text = r.text
    unfold mkPreview
    rw [if_neg (by omega), List.append_nil, List.take_of_length_le h]
  · intro h
    have hpre : (mkHistoryItem now rand r).preview = r.text.take 150 ++ ['.', '.', '.'] := by
      show mkPreview r.text = _
      unfold mkPreview
      rw [if_pos h]
    refine ⟨hpre, ?_⟩
    rw [hpre, List.length_append, List.length_take]
    simp only [List.length_cons, List.length_nil]
    omega

/-- C3 witness: a result whose text has length 200 is previewed with
length 153. -/
theorem mkHistoryItem_preview_spec_witness :
    150 < (List.replicate 200 'a').length ∧
    (mkHistoryItem 0 [] ⟨[], [], [], [], List.replicate 200 'a'⟩).preview.length = 153 := by
  have h : 150 < (List.replicate 200 'a' : Str).length := by
    rw [List.length_replicate]
    omega
  exact ⟨h,
    ((mkHistoryItem_preview_spec 0 [] ⟨[], [], [], [], List.replicate 200 'a'⟩).2 h).2⟩

/-- C5: listing is total and returns the empty sequence when the key is
absent or the stored string fails to deserialize; a well-formed stored
list is returned as is. -/
theorem getTranscriptionHistory_empty_on_bad :
    getTranscriptionHistory none = [] ∧
    (∀ s : Str, getTranscriptionHistory (some (.corrupt s)) = []) ∧
    (∀ l : List HistoryItem, getTranscriptionHistory (some (.ok l)) = l) :=
  ⟨rfl, fun _ => rfl, fun _ => rfl⟩

/-- C6: when the underlying storage write (or remove) throws, each
operation catches the failure and returns with the storage slot
unchanged; no partial write is observable. -/
theorem storeOps_catch_failures (st : Storage) :
    (∀ (now : Nat) (rand : Str) (r : TranscriptionResult),
        saveTranscription now rand true r st = st) ∧
    (∀ id : Str, deleteTranscription id true st = st) ∧
    clearAllHistory true st = st :=
  ⟨fun _ _ _ => rfl, fun _ => rfl, rfl⟩

/-- C7: clearing removes the storage key entirely, so a following list
returns the empty sequence. -/
theorem clearAllHistory_then_list_empty (st : Storage) :
    clearAllHistory false st = none ∧
    getTranscriptionHistory (clearAllHistory false st) = [] :=
  ⟨rfl, rfl⟩

/-- C9: after a successful delete, no record with the deleted id
remains, even when several records shared that id. -/
theorem deleteTranscription_removes_all_matching (st : Storage) (id : Str) :
    ∀ x ∈ getTranscriptionHistory (deleteTranscription id false st), x.id ≠ id := by
  intro x hx
  have hdel : getTranscriptionHistory (deleteTranscription id false st) =
      (getTranscriptionHistory st).filter (fun item => item.id != id) := rfl
  rw [hdel, List.mem_filter] at hx
  simpa using hx.2

/-- C10: a successful save on top of a corrupt storage string replaces
it with a list holding exactly the one new record. -/
theorem saveTranscription_overwrites_corrupt (now : Nat) (rand : Str)
    (r : TranscriptionResult) (s : Str) :
    saveTranscription now rand false r (some (.corrupt s)) =
        some (.ok [mkHistoryItem now rand r]) ∧
    getTranscriptionHistory (saveTranscription now rand false r (some (.corrupt s))) =
        [mkHistoryItem now rand r] :=
  ⟨rfl, rfl⟩

/-- C4: a successful delete keeps the surviving records in their
original relative order (result is a sublist of the original list),
drops every record holding the deleted id, keeps every record with a
different id, and is a no-op on the observed list when no record holds
the id. -/
theorem deleteTranscription_removes_exactly (st : Storage) (id : Str) :
    (getTranscriptionHistory (deleteTranscription id false st)).Sublist
        (getTranscriptionHistory st) ∧
    (∀ x ∈ getTranscriptionHistory (deleteTranscription id false st), x.id ≠ id) ∧
    (∀ x ∈ getTranscriptionHistory st, x.id ≠ id →
        x ∈ getTranscriptionHistory (deleteTranscription id false st)) ∧
    ((∀ x ∈ getTranscriptionHistory st, x.id ≠ id) →
        getTranscriptionHistory (deleteTranscription id false st) =
          getTranscriptionHistory st) := by
  have hdel : getTranscriptionHistory (deleteTranscription id false st) =
      (getTranscriptionHistory st).filter (fun item => item.id != id) := rfl
  refine ⟨?_, ?_, ?_, ?_⟩
  · rw [hdel]; exact List.filter_sublist _
  · intro x hx
    rw [hdel, List.mem_filter] at hx
    simpa using hx.2
  · intro x hx hne
    rw [hdel, List.mem_filter]
    exact ⟨hx, by simpa using hne⟩
  · intro hall
    rw [hdel]
    refine List.filter_eq_self.mpr ?_
    intro a ha
    simpa using hall a ha

/-- C4 witness: deleting id `1-aa` from a concrete stored list keeps
the record whose id is `2-bb`. -/
theorem deleteTranscription_removes_exactly_witness :
    recB ∈ getTranscriptionHistory (deleteTranscription "1-aa".data false dupStore) :=
  (deleteTranscription_removes_exactly dupStore "1-aa".data).2.2.1 recB
    (by decide) (by decide)

/-- C9 witness: after deleting id `1-aa` from a stored list in which two
records share that id, the surviving record's id differs from it. -/
theorem deleteTranscription_removes_all_matching_witness :
    recB.id ≠ "1-aa".data :=
  deleteTranscription_removes_all_matching dupStore "1-aa".data recB (by decide)

/-- `takeWhile` passes over a prefix all of whose elements satisfy the
predicate. -/
theorem takeWhile_append_of_all {α : Type} (p : α → Bool) (l₁ l₂ : List α)
    (h : ∀ a ∈ l₁, p a = true) :
    (l₁ ++ l₂).takeWhile p = l₁ ++ l₂.takeWhile p := by
  induction l₁ with
  | nil => simp
  | cons a t ih =>
    rw [List.cons_append, List.takeWhile_cons_of_pos (h a (by simp)), List.cons_append,
      ih (fun b hb => h b (by simp [hb]))]

/-- `dropWhile` drops a prefix all of whose elements satisfy the
predicate. -/
theorem dropWhile_append_of_all {α : Type} (p : α → Bool) (l₁ l₂ : List α)
    (h : ∀ a ∈ l₁, p a = true) :
    (l₁ ++ l₂).dropWhile p = l₂.dropWhile p := by
  induction l₁ with
  | nil => simp
  | cons a t ih =>
    rw [List.cons_append, List.dropWhile_cons_of_pos (h a (by simp)),
      ih (fun b hb => h b (by simp [hb]))]

/-- The regex `\.[^/.]+$` removes a final `.ext` when `ext` is nonempty
and free of dots and slashes. -/
theorem stripExtension_strips (base ext : Str) (hne : ext ≠ [])
    (hdot : '.' ∉ ext) (hslash : '/' ∉ ext) :
    stripExtension (base ++ '.' :: ext) = base := by
  have hall : ∀ a ∈ ext.reverse, (!(a == '.' || a == '/')) = true := by
    intro a ha
    rw [List.mem_reverse] at ha
    simp only [Bool.not_eq_eq_eq_not, Bool.not_true, Bool.or_eq_false_iff, beq_eq_false_iff_ne]
    exact ⟨fun hE => hdot (hE ▸ ha), fun hE => hslash (hE ▸ ha)⟩
  have hrev : (base ++ '.' :: ext).reverse = ext.reverse ++ '.' :: base.reverse := by
    rw [List.reverse_append, List.reverse_cons, List.append_assoc, List.singleton_append]
  simp only [stripExtension]
  rw [hrev, takeWhile_append_of_all _ _ _ hall, dropWhile_append_of_all _ _ _ hall,
    List.takeWhile_cons_of_neg (by simp), List.dropWhile_cons_of_neg (by simp)]
  rw [List.append_nil, if_pos ⟨List.reverse_eq_nil_iff.not.mpr hne, rfl⟩]
  simp

/-- A file name holding no dot is left unchanged by the regex. -/
theorem stripExtension_no_dot (s : Str) (hdot : '.' ∉ s) :
    stripExtension s = s := by
  simp only [stripExtension]
  refine if_neg ?_
  rintro ⟨-, hhead⟩
  have hmem : '.' ∈ (s.reverse.dropWhile (fun c => !(c == '.' || c == '/'))) :=
    List.mem_of_mem_head? (by rw [hhead]; simp)
  exact hdot (List.mem_reverse.mp ((List.dropWhile_sublist _).mem hmem))

/-- C8: exporting a record produces a download whose content is exactly
the record's text and whose file name is the record's file name with
its trailing extension stripped (a final `.ext` with `ext` nonempty,
dot-free and slash-free is removed; a dot-free name is unchanged)
followed by `_transcript.txt`; the storage slot is untouched, so the
listed records are unchanged. -/
theorem downloadTranscription_spec (item : HistoryItem) (st : Storage) :
    (downloadTranscription item st).1.content = item.text ∧
    (downloadTranscription item st).1.fileName =
        stripExtension item.fileName ++ "_transcript.txt".data ∧
    (downloadTranscription item st).2 = st ∧
    getTranscriptionHistory (downloadTranscription item st).2 =
        getTranscriptionHistory st ∧
    (∀ base ext : Str, ext ≠ [] → '.' ∉ ext → '/' ∉ ext →
        stripExtension (base ++ '.' :: ext) = base) ∧
    (∀ s : Str, '.' ∉ s → stripExtension s = s) :=
  ⟨rfl, rfl, rfl, rfl, stripExtension_strips, stripExtension_no_dot⟩

/-- C8 witness: the concrete file name `audio.mp3` is exported as
`audio_transcript.txt`. -/
theorem downloadTranscription_spec_witness :
    stripExtension ("audio".data ++ '.' :: "mp3".data) = "audio".data ∧
    (downloadTranscription recA none).1.fileName = "audio_transcript.txt".data :=
  ⟨(downloadTranscription_spec recA none).2.2.2.2.1 "audio".data "mp3".data
      (by decide) (by decide) (by decide),
    by decide⟩

/-- One step keeps the observed list a sublist of the step's saved
records followed by the previous list. -/
theorem step_sublist (st : Storage) (op : Op) :
    (getTranscriptionHistory (step st op)).Sublist
      (opItems op ++ getTranscriptionHistory st) := by
  cases op with
  | save now rand wf r =>
    cases wf with
    | false =>
      have hs : getTranscriptionHistory (step st (Op.save now rand false r)) =
          (mkHistoryItem now rand r :: getTranscriptionHistory st).take 100 := rfl
      rw [hs, show opItems (Op.save now rand false r) = [mkHistoryItem now rand r] from rfl,
        List.singleton_append]
      exact List.take_sublist _ _
    | true =>
      have hs : step st (Op.save now rand true r) = st := rfl
      rw [hs, show opItems (Op.save now rand true r) = [] from rfl, List.nil_append]
  | del id wf =>
    cases wf with
    | false =>
      have hs : getTranscriptionHistory (step st (Op.del id false)) =
          (getTranscriptionHistory st).filter (fun item => item.id != id) := rfl
      rw [hs, show opItems (Op.del id false) = [] from rfl, List.nil_append]
      exact List.filter_sublist _
    | true =>
      have hs : step st (Op.del id true) = st := rfl
      rw [hs, show opItems (Op.del id true) = [] from rfl, List.nil_append]
  | clear rf =>
    cases rf with
    | false =>
      have hs : getTranscriptionHistory (step st (Op.clear false)) = [] := rfl
      rw [hs]
      exact List.nil_sublist _
    | true =>
      have hs : step st (Op.clear true) = st := rfl
      rw [hs, show opItems (Op.clear true) = [] from rfl, List.nil_append]

/-- Running any operations keeps the observed list a sublist of the
records saved during the run followed by the starting list. -/
theorem foldl_step_sublist (ops : List Op) : ∀ st : Storage,
    (getTranscriptionHistory (ops.foldl step st)).Sublist
      (savedItemsRev ops ++ getTranscriptionHistory st) := by
  induction ops with
  | nil => intro st; exact List.Sublist.refl _
  | cons op rest ih =>
    intro st
    rw [List.foldl_cons,
      show savedItemsRev (op :: rest) = savedItemsRev rest ++ opItems op from rfl,
      List.append_assoc]
    exact (ih (step st op)).trans ((step_sublist st op).append_left _)

/-- One step keeps the observed list within the 100-record bound. -/
theorem step_length_le (st : Storage) (op : Op)
    (h : (getTranscriptionHistory st).length ≤ 100) :
    (getTranscriptionHistory (step st op)).length ≤ 100 := by
  cases op with
  | save now rand wf r =>
    cases wf with
    | false =>
      have hs : getTranscriptionHistory (step st (Op.save now rand false r)) =
          (mkHistoryItem now rand r :: getTranscriptionHistory st).take 100 := rfl
      rw [hs]
      exact List.length_take_le _ _
    | true => exact h
  | del id wf =>
    cases wf with
    | false =>
      have hs : getTranscriptionHistory (step st (Op.del id false)) =
          (getTranscriptionHistory st).filter (fun item => item.id != id) := rfl
      rw [hs]
      exact le_trans (List.length_filter_le _ _) h
    | true => exact h
  | clear rf =>
    cases rf with
    | false =>
      have hs : getTranscriptionHistory (step st (Op.clear false)) = [] := rfl
      rw [hs]
      exact Nat.zero_le _
    | true => exact h

/-- Running any operations keeps the observed list within the
100-record bound. -/
theorem foldl_step_length_le (ops : List Op) : ∀ st : Storage,
    (getTranscriptionHistory st).length ≤ 100 →
    (getTranscriptionHistory (ops.foldl step st)).length ≤ 100 := by
  induction ops with
  | nil => intro st h; exact h
  | cons op rest ih =>
    intro st h
    rw [List.foldl_cons]
    exact ih (step st op) (step_length_le st op h)

/-- Taking `n` of an appended tail already cut to `n` is taking `n` of
the appended tail. -/
theorem take_append_take {α : Type} (A l : List α) (n : Nat) :
    (A ++ l.take n).take n = (A ++ l).take n := by
  rw [List.take_append_eq_append_take, List.take_take, List.take_append_eq_append_take,
    Nat.min_eq_left (Nat.sub_le n A.length)]

/-- A run of successful saves observed from a within-bound state yields
the new records, most recent first, followed by the old ones, cut to
100. -/
theorem foldl_step_saves (qs : List SaveReq) : ∀ st : Storage,
    (getTranscriptionHistory st).length ≤ 100 →
    getTranscriptionHistory ((savesOf qs).foldl step st) =
      ((itemsOf qs).reverse ++ getTranscriptionHistory st).take 100 := by
  induction qs with
  | nil =>
    intro st h
    rw [show itemsOf [] = [] from rfl, List.reverse_nil, List.nil_append,
      List.take_of_length_le h]
    rfl
  | cons q rest ih =>
    intro st h
    have hstep : savesOf (q :: rest) = Op.save q.now q.rand false q.result :: savesOf rest :=
      rfl
    have hget : getTranscriptionHistory (step st (Op.save q.now q.rand false q.result)) =
        (q.item :: getTranscriptionHistory st).take 100 := rfl
    rw [hstep, List.foldl_cons, ih _ (by rw [hget]; exact List.length_take_le _ _), hget,
      take_append_take, show itemsOf (q :: rest) = q.item :: itemsOf rest from rfl,
      List.reverse_cons, List.append_assoc, List.singleton_append]

/-- C1: in every state reachable by save/delete/clear from empty
storage, the persisted sequence holds at most 100 records and respects
the most-recently-saved-first order (it is an in-order sublist of the
successfully saved records, newest first); saving 101 pairwise distinct
results leaves exactly 100 records, equal to the latest 100 newest
first, with the oldest record absent. -/
theorem run_bounded_and_ordered :
    (∀ ops : List Op,
        (getTranscriptionHistory (run ops)).length ≤ 100 ∧
        (getTranscriptionHistory (run ops)).Sublist (savedItemsRev ops)) ∧
    (∀ (q : SaveReq) (rest : List SaveReq),
        rest.length = 100 → (itemsOf (q :: rest)).Nodup →
        (getTranscriptionHistory (run (savesOf (q :: rest)))).length = 100 ∧
        getTranscriptionHistory (run (savesOf (q :: rest))) = (itemsOf rest).reverse ∧
        SaveReq.item q ∉ getTranscriptionHistory (run (savesOf (q :: rest)))) := by
  constructor
  · intro ops
    refine ⟨foldl_step_length_le ops none (Nat.zero_le 100), ?_⟩
    have h := foldl_step_sublist ops none
    rw [show getTranscriptionHistory none = [] from rfl, List.append_nil] at h
    exact h
  · intro q rest hlen hnodup
    have hrun : getTranscriptionHistory (run (savesOf (q :: rest))) =
        ((itemsOf (q :: rest)).reverse ++ getTranscriptionHistory none).take 100 :=
      foldl_step_saves (q :: rest) none (Nat.zero_le 100)
    have hR : ((itemsOf rest).reverse : List HistoryItem).length = 100 := by
      rw [List.length_reverse, show itemsOf rest = rest.map SaveReq.item from rfl,
        List.length_map, hlen]
    have hitems : itemsOf (q :: rest) = SaveReq.item q :: itemsOf rest := rfl
    have hget : getTranscriptionHistory (run (savesOf (q :: rest))) =
        (itemsOf rest).reverse := by
      rw [hrun, show getTranscriptionHistory none = [] from rfl, List.append_nil, hitems,
        List.reverse_cons, List.take_left' hR]
    refine ⟨by rw [hget]; exact hR, hget, ?_⟩
    rw [hget, List.mem_reverse]
    rw [hitems, List.nodup_cons] at hnodup
    exact hnodup.1

set_option maxRecDepth 40000 in
/-- C1 witness: 101 concrete saves with distinct clock values leave the
oldest record out of the listed history. -/
theorem run_bounded_and_ordered_witness :
    wrest.length = 100 ∧
    SaveReq.item (wreq 0) ∉ getTranscriptionHistory (run (savesOf (wreq 0 :: wrest))) := by
  have h1 : wrest.length = 100 := by
    rw [wrest, List.length_map, List.length_range]
  have h2 : (itemsOf (wreq 0 :: wrest)).Nodup := by decide
  exact ⟨h1, (run_bounded_and_ordered.2 (wreq 0) wrest h1 h2).2.2⟩
